import Mathlib

/-!
# The random name drawer (`src/app.js`)

A shallow embedding of the state logic of `app.js`: the persisted session
(`State`), the name normalisation (`normalizeNames`, `parseNames`), the
tolerant loader (`loadState`), and the draw state machine (`startDraw`, the
completion callback, `applyWinner`, `undo`, the two resets and the setters).

JavaScript strings are modelled as lists of characters.  The only characters
the code tests for (white space, `,`, `\n`, `\r`) are single code units, so
the code-unit and the character view of a string agree on them.
-/

namespace RandomNames

/-- A JavaScript string. -/
abbrev Str := List Char

/-! ## Text helpers -/

/-- The characters matched by the regular expression class `\s`; they are
also the characters that `String.prototype.trim` strips. -/
def isWs (c : Char) : Bool :=
  let n := c.toNat
  n == 9 || n == 10 || n == 11 || n == 12 || n == 13 || n == 32 || n == 160
    || n == 5760 || (8192 ≤ n && n ≤ 8202) || n == 8232 || n == 8233
    || n == 8239 || n == 8287 || n == 12288 || n == 65279

/-- The method `s.trim()`: white space is stripped from both ends. -/
def trim (s : Str) : Str :=
  (s.dropWhile isWs).rdropWhile isWs

/-- The scan of `s.replace(/\s+/g, " ")`: `inRun` tells that the previous
character was white space, so the current match of `\s+` has already been
replaced by its single space. -/
def collapseFrom : Bool → Str → Str
  | _, [] => []
  | inRun, c :: cs =>
    if isWs c then
      if inRun then collapseFrom true cs else ' ' :: collapseFrom true cs
    else c :: collapseFrom false cs

/-- The call `s.replace(/\s+/g, " ")`: every maximal run of white space
becomes one space. -/
def collapseWs (s : Str) : Str :=
  collapseFrom false s

/-- The call `text.replace(/\r\n/g, "\n")`. -/
def replaceCRLF : Str → Str
  | [] => []
  | [c] => [c]
  | c :: d :: cs =>
    if c = '\r' ∧ d = '\n' then '\n' :: replaceCRLF cs
    else c :: replaceCRLF (d :: cs)

/-- The separators of `/[\n,]/`. -/
def isSep (c : Char) : Bool :=
  c == '\n' || c == ','

/-- The call `s.split(/[\n,]/g)`: the pieces between separators; a string
with `k` separators has `k + 1` pieces, empty ones included. -/
def splitSep : Str → List Str
  | [] => [[]]
  | c :: cs =>
    if isSep c then [] :: splitSep cs
    else
      match splitSep cs with
      | [] => [[c]]
      | p :: ps => (c :: p) :: ps

/-- The per-entry normalisation of `normalizeNames`:
`String(raw).replace(/\s+/g, " ").trim()`. -/
def normWs (raw : Str) : Str :=
  trim (collapseWs raw)

/-- The `for` loop of `normalizeNames`, with its two accumulators `seen`
(the set, kept as the list of its members) and `out`. -/
def normalizeLoop : List Str → List Str → List Str → List Str
  | _, out, [] => out
  | seen, out, raw :: rest =>
    let n := normWs raw
    if n = [] then normalizeLoop seen out rest
    else if n ∈ seen then normalizeLoop seen out rest
    else normalizeLoop (seen ++ [n]) (out ++ [n]) rest

/-- The function `normalizeNames(names)`. -/
def normalizeNames (names : List Str) : List Str :=
  normalizeLoop [] [] names

/-- The function `parseNames(text)`. -/
def parseNames (text : Str) : List Str :=
  let replaced := replaceCRLF text
  let parts := ((splitSep replaced).map trim).filter (fun s => s ≠ [])
  normalizeNames parts

/-! ## The persisted session -/

/-- The record type `State` of the source. -/
structure State where
  names : List Str
  noRepeat : Bool
  sound : Bool
  remaining : List Str
  history : List Str
deriving DecidableEq, Repr

/-- The function `defaultState()`. -/
def defaultState : State :=
  { names := [], noRepeat := true, sound := false, remaining := [], history := [] }

/-- A value as `JSON.parse` returns it. -/
inductive Json where
  | null
  | bool (b : Bool)
  | num (n : Int)
  | str (s : Str)
  | arr (items : List Json)
  | obj (props : List (Str × Json))

/-- The property read `parsed.key`: `none` when the read throws (`parsed` is
`null`), `some none` when the result is `undefined`. -/
def getProp (parsed : Json) (key : Str) : Option (Option Json) :=
  match parsed with
  | .null => none
  | .obj props => some (props.lookup key)
  | _ => some none

/-- The filter `arr.filter((x) => typeof x === "string")`. -/
def stringsOf : List Json → List Str
  | [] => []
  | .str s :: rest => s :: stringsOf rest
  | _ :: rest => stringsOf rest

/-- One guarded assignment `if (Array.isArray(parsed.key)) s.key = ...` of
`loadState`, starting from the default `[]`. -/
def arrayField (parsed : Json) (key : Str) : Option (List Str) :=
  match getProp parsed key with
  | none => none
  | some (some (.arr items)) => some (stringsOf items)
  | some _ => some []

/-- One guarded assignment `if (typeof parsed.key === "boolean") s.key = ...`
of `loadState`, starting from the default `dflt`. -/
def boolField (parsed : Json) (key : Str) (dflt : Bool) : Option Bool :=
  match getProp parsed key with
  | none => none
  | some (some (.bool b)) => some b
  | some _ => some dflt

/-- The body of the `try` block of `loadState` after `JSON.parse`; `none`
when it throws. -/
def loadParsed (parsed : Json) : Option State :=
  match arrayField parsed "names".toList with
  | none => none
  | some names0 =>
  match boolField parsed "noRepeat".toList defaultState.noRepeat with
  | none => none
  | some noRepeat =>
  match boolField parsed "sound".toList defaultState.sound with
  | none => none
  | some sound =>
  match arrayField parsed "remaining".toList with
  | none => none
  | some remaining0 =>
  match arrayField parsed "history".toList with
  | none => none
  | some history0 =>
    let names := normalizeNames names0
    some
      { names := names
        noRepeat := noRepeat
        sound := sound
        remaining := (normalizeNames remaining0).filter (fun n => decide (n ∈ names))
        history := (normalizeNames history0).filter (fun n => decide (n ∈ names)) }

/-- The function `loadState()`.  `raw` is what `localStorage.getItem` gave
(`none` for `null`) and `jsonParse` is the built-in `JSON.parse` (`none` when
it throws). -/
def loadState (jsonParse : Str → Option Json) (raw : Option Str) : State :=
  match raw with
  | none => defaultState
  | some r =>
    if r = [] then defaultState
    else
      match jsonParse r with
      | none => defaultState
      | some parsed =>
        match loadParsed parsed with
        | none => defaultState
        | some s => s

/-- The record that `JSON.parse` reads back from what `saveState(state)`
stored, namely `JSON.stringify(state)`. -/
def savedRecord (state : State) : Json :=
  .obj
    [ ("names".toList, .arr (state.names.map .str)),
      ("noRepeat".toList, .bool state.noRepeat),
      ("sound".toList, .bool state.sound),
      ("remaining".toList, .arr (state.remaining.map .str)),
      ("history".toList, .arr (state.history.map .str)) ]

/-! ## The draw state machine -/

/-- A value of `Math.random()`: the fraction `num / den`, which lies in
`[0, 1)` exactly when `num < den`. -/
structure Rnd where
  num : Nat
  den : Nat
deriving DecidableEq, Repr

/-- The range `0 ≤ Math.random() < 1`. -/
def Rnd.inRange (u : Rnd) : Bool :=
  decide (u.num < u.den)

/-- The function `randInt(min, max)` at the random value `u`. -/
def randInt (min max : Int) (u : Rnd) : Int :=
  (u.num : Int) * (max - min + 1) / (u.den : Int) + min

/-- The function `pickOne(arr)` at the random value `u`; `none` is
`undefined`. -/
def pickOne (arr : List Str) (u : Rnd) : Option Str :=
  arr.get? (randInt 0 ((arr.length : Int) - 1) u).toNat

/-- The module-level variables: `state`, the guard `isDrawing`, and the
pending completion timeout `drawStopper`, kept as the `pool` its callback
captured.  (The interval `drawTimer` only writes to the page.) -/
structure Machine where
  state : State
  isDrawing : Bool
  drawStopper : Option (List Str)
deriving DecidableEq, Repr

/-- The function `computeRemainingBase()`. -/
def computeRemainingBase (state : State) : List Str :=
  if !state.noRepeat then state.names
  else state.names.filter (fun n => !decide (n ∈ state.history))

/-- The function `ensureRemaining()`. -/
def ensureRemaining (state : State) : State :=
  { state with remaining := computeRemainingBase state }

/-- The function `stopAnimation()`. -/
def stopAnimation (m : Machine) : Machine :=
  { m with drawStopper := none, isDrawing := false }

/-- The function `resetDrawOnly()`. -/
def resetDrawOnly (m : Machine) : Machine :=
  let m := stopAnimation m
  { m with state := ensureRemaining { m.state with history := [] } }

/-- The function `hardReset()`. -/
def hardReset (m : Machine) : Machine :=
  let m := stopAnimation m
  { m with state := defaultState }

/-- The function `onSaveNames()`, with `text` the value of the text area. -/
def onSaveNames (m : Machine) (text : Str) : Machine :=
  let names := parseNames text
  if names.length < 2 then m
  else { m with state := ensureRemaining { m.state with names := names, history := [] } }

/-- The function `setNoRepeat(checked)`. -/
def setNoRepeat (m : Machine) (checked : Bool) : Machine :=
  { m with state := ensureRemaining { m.state with noRepeat := checked } }

/-- The function `setSound(checked)`. -/
def setSound (m : Machine) (checked : Bool) : Machine :=
  { m with state := { m.state with sound := checked } }

/-- The function `applyWinner(winner)`. -/
def applyWinner (state : State) (winner : Str) : State :=
  let state := { state with history := state.history ++ [winner] }
  if state.noRepeat then
    { state with remaining := state.remaining.filter (fun n => decide (n ≠ winner)) }
  else state

/-- The synchronous part of `startDraw()`: the three guards, then the guard
flag is raised and the completion timeout is scheduled with its `pool`. -/
def startDraw (m : Machine) : Machine :=
  if m.isDrawing then m
  else if m.state.names.length = 0 then m
  else if m.state.noRepeat && m.state.remaining.length = 0 then m
  else
    let pool := if m.state.noRepeat then m.state.remaining else m.state.names
    { m with isDrawing := true, drawStopper := some pool }

/-- The completion callback that `startDraw()` scheduled, run with the random
value `u`: `stopAnimation()`, `pickOne(pool)`, `applyWinner(winner)`.  The
result is `none` when no callback is pending, when `u` is no value of
`Math.random()`, or when `pickOne` gives `undefined`. -/
def drawDone (m : Machine) (u : Rnd) : Option Machine :=
  match m.drawStopper with
  | none => none
  | some pool =>
    if u.inRange then
      let m := stopAnimation m
      match pickOne pool u with
      | none => none
      | some winner => some { m with state := applyWinner m.state winner }
    else none

/-- The function `undo()`. -/
def undo (m : Machine) : Machine :=
  if m.state.history.length = 0 || m.isDrawing then m
  else
    match m.state.history.getLast? with
    | none => m
    | some last =>
      let state := { m.state with history := m.state.history.dropLast }
      if state.noRepeat then
        if !decide (last ∈ state.remaining) && decide (last ∈ state.names) then
          { m with state := { state with remaining := last :: state.remaining } }
        else { m with state := state }
      else { m with state := state }

/-- What can happen to the page: the wired handlers and the completion of a
pending draw. -/
inductive Event where
  | saveNames (text : Str)
  | setNoRepeat (checked : Bool)
  | setSound (checked : Bool)
  | startDraw
  | drawDone (u : Rnd)
  | undo
  | resetDrawOnly
  | hardReset
deriving DecidableEq, Repr

/-- One event applied to the machine; `none` when the event cannot occur. -/
def step (m : Machine) : Event → Option Machine
  | .saveNames text => some (onSaveNames m text)
  | .setNoRepeat checked => some (setNoRepeat m checked)
  | .setSound checked => some (setSound m checked)
  | .startDraw => some (startDraw m)
  | .drawDone u => drawDone m u
  | .undo => some (undo m)
  | .resetDrawOnly => some (resetDrawOnly m)
  | .hardReset => some (hardReset m)

/-- A sequence of events, from left to right. -/
def run (m : Machine) : List Event → Option Machine
  | [] => some m
  | e :: es =>
    match step m e with
    | none => none
    | some m1 => run m1 es

/-- The machine once the script has loaded: `state = loadState()`, the
timers unset, and the `ensureRemaining()` of the init section done. -/
def initMachine (jsonParse : Str → Option Json) (raw : Option Str) : Machine :=
  { state := ensureRemaining (loadState jsonParse raw)
    isDrawing := false
    drawStopper := none }

/-- The machine of a first visit: nothing is stored. -/
def freshMachine : Machine :=
  initMachine (fun _ => none) none

/-- The sessions the page can be in. -/
def Reachable (m : Machine) : Prop :=
  ∃ (jsonParse : Str → Option Json) (raw : Option Str) (es : List Event),
    run (initMachine jsonParse raw) es = some m

/-- The sessions the page can be in on a first visit (default session). -/
def ReachableFresh (m : Machine) : Prop :=
  ∃ es : List Event, run freshMachine es = some m

/-- One whole draw: `startDraw()` and, with no other event in between, its
completion with the random value `u`. -/
def drawOnce (m : Machine) (u : Rnd) : Option Machine :=
  drawDone (startDraw m) u

/-- A sequence of whole draws. -/
def drawMany (m : Machine) : List Rnd → Option Machine
  | [] => some m
  | u :: us =>
    match drawOnce m u with
    | none => none
    | some m1 => drawMany m1 us

/-- The function `undo()` called `k` times. -/
def undoMany (m : Machine) : Nat → Machine
  | 0 => m
  | k + 1 => undoMany (undo m) k

/-- Resumption: `loadState()` on the record the last `saveState(state)`
stored, then the `ensureRemaining()` of the init section. -/
def resume (state : State) : State :=
  ensureRemaining
    (match loadParsed (savedRecord state) with
     | none => defaultState
     | some s => s)

/-! ## Concrete sessions used below -/

/-- The name `A`. -/
def nameA : Str := "A".toList

/-- The name `B`. -/
def nameB : Str := "B".toList

/-- The events of a repeat-allowed session in which `A` wins twice, then
no-repeat is switched on and the last draw is undone. -/
def undoAfterRepeatEvents : List Event :=
  [ .saveNames "A,B".toList, .setNoRepeat false,
    .startDraw, .drawDone ⟨0, 1⟩, .startDraw, .drawDone ⟨0, 1⟩,
    .setNoRepeat true, .undo ]

/-- The machine that `undoAfterRepeatEvents` leads to. -/
def undoAfterRepeatMachine : Machine :=
  { state :=
      { names := [nameA, nameB], noRepeat := true, sound := false,
        remaining := [nameA, nameB], history := [nameA] }
    isDrawing := false
    drawStopper := none }

/-- The events of a draw during which a new roster is saved. -/
def saveDuringDrawEvents : List Event :=
  [ .saveNames "A,B".toList, .startDraw, .saveNames "C,D".toList, .drawDone ⟨0, 1⟩ ]

/-- The events that lead into a draw with one name already drawn. -/
def secondDrawEvents : List Event :=
  [ .saveNames "A,B".toList, .startDraw, .drawDone ⟨0, 1⟩, .startDraw ]

/-- The machine that `secondDrawEvents` leads to: a draw is in progress. -/
def secondDrawMachine : Machine :=
  { state :=
      { names := [nameA, nameB], noRepeat := true, sound := false,
        remaining := [nameB], history := [nameA] }
    isDrawing := true
    drawStopper := some [nameB] }

/-- The events of a repeat-allowed session in which `A` wins twice. -/
def repeatTwiceEvents : List Event :=
  [ .saveNames "A,B".toList, .setNoRepeat false,
    .startDraw, .drawDone ⟨0, 1⟩, .startDraw, .drawDone ⟨0, 1⟩ ]

/-- The machine that `repeatTwiceEvents` leads to. -/
def repeatTwiceMachine : Machine :=
  { state :=
      { names := [nameA, nameB], noRepeat := false, sound := false,
        remaining := [nameA, nameB], history := [nameA, nameA] }
    isDrawing := false
    drawStopper := none }

/-- A session whose no-repeat pool is used up. -/
def exhaustedMachine : Machine :=
  { state :=
      { names := [nameA, nameB], noRepeat := true, sound := false,
        remaining := [], history := [nameB, nameA] }
    isDrawing := false
    drawStopper := none }

/-- No draw is pending. -/
def Idle (m : Machine) : Prop :=
  m.isDrawing = false ∧ m.drawStopper = none

instance (m : Machine) : Decidable (Idle m) := by
  unfold Idle; infer_instance

/-! ## The roster as the specification words it -/

/-- Later duplicates removed: every entry is kept at its first occurrence. -/
def keepFirst : List Str → List Str
  | [] => []
  | x :: xs => x :: (keepFirst xs).filter (fun y => decide (y ≠ x))

/-- The roster of a text in the words of the specification: the text is split
on newline or comma, each piece is trimmed and its runs of white space are
collapsed to one space, empty pieces are dropped and later duplicates are
removed. -/
def rosterOfText (text : Str) : List Str :=
  keepFirst (((splitSep text).map (fun p => collapseWs (trim p))).filter (fun s => s ≠ []))

/-- No white space at either end. -/
def Trimmed (s : Str) : Prop :=
  (∀ c ∈ s.head?, isWs c = false) ∧ (∀ c ∈ s.getLast?, isWs c = false)

/-- No two adjacent white-space characters. -/
def NoWsPair (s : Str) : Prop :=
  List.Chain' (fun a b => ¬(isWs a = true ∧ isWs b = true)) s

/-- Every white-space character is the plain space. -/
def OnlySpaces (s : Str) : Prop :=
  ∀ c ∈ s, isWs c = true → c = ' '

/-- The no-repeat pool of the roster `roster` between draws: no draw is
pending, no-repeat is on, and `history` and `remaining` together hold the
names of the roster, each once. -/
def PoolInv (roster : List Str) (m : Machine) : Prop :=
  Idle m ∧ m.state.noRepeat = true ∧ m.state.names = roster
    ∧ (m.state.history ++ m.state.remaining).Perm roster

/-- The text of the scenario roster. -/
def kimLeeParkText : Str := "Kim,Lee,Park".toList

/-- Three random values: they pick `Kim`, then `Park`, then `Lee`. -/
def threeDraws : List Rnd := [⟨0, 1⟩, ⟨1, 2⟩, ⟨0, 1⟩]

/-- The scenario session after the draws of `Kim` and `Park`. -/
def twoDrawnMachine : Machine :=
  { state :=
      { names := ["Kim".toList, "Lee".toList, "Park".toList], noRepeat := true, sound := false,
        remaining := ["Lee".toList], history := ["Kim".toList, "Park".toList] }
    isDrawing := false
    drawStopper := none }

/-- A text with untidy spacing, a Windows line end, empty pieces and a
repeated name. -/
def untidyText : Str := " Kim ,Lee\r\n  Park   Jr \n\nKim,,".toList

/-- The events that start a draw on the roster `A,B`. -/
def firstDrawEvents : List Event :=
  [ .saveNames "A,B".toList, .startDraw ]

/-- The machine that `firstDrawEvents` leads to: no-repeat is on and a draw
on the pool `[A, B]` is pending. -/
def firstDrawMachine : Machine :=
  { state :=
      { names := [nameA, nameB], noRepeat := true, sound := false,
        remaining := [nameA, nameB], history := [] }
    isDrawing := true
    drawStopper := some [nameA, nameB] }

/-- The machine after the roster `C,D` was saved during that draw and two
draws have completed since. -/
def staleWinnerMachine : Machine :=
  { state :=
      { names := ["C".toList, "D".toList], noRepeat := true, sound := false,
        remaining := ["D".toList], history := [nameA, "C".toList] }
    isDrawing := false
    drawStopper := none }

/-- A piece of the original text is the piece of the replaced text, possibly
followed by the carriage return that the replacement removed. -/
def CrTail (a b : Str) : Prop :=
  b = a ∨ b = a ++ ['\r']

/-- A list that `normalizeNames` leaves as it is: no entry twice, every
entry non-empty and already normalised. -/
def IsRoster (l : List Str) : Prop :=
  l.Nodup ∧ ∀ e ∈ l, e ≠ [] ∧ normWs e = e

/-- The array a loaded field starts from when `parsed` is not `null`: the
strings of the stored array, or `[]`. -/
def fieldArr (parsed : Json) (key : Str) : List Str :=
  match getProp parsed key with
  | some (some (.arr items)) => stringsOf items
  | _ => []

/-- The flag a loaded field gets when `parsed` is not `null`: the stored
boolean, or the default. -/
def fieldBool (parsed : Json) (key : Str) (dflt : Bool) : Bool :=
  match getProp parsed key with
  | some (some (.bool b)) => b
  | _ => dflt

/-- A stored record with a number among the names, an untidy and a repeated
name, a text where the no-repeat flag should be, no `remaining` key, and a
history entry that is not in the roster. -/
def samplePayload : Json :=
  .obj
    [ ("names".toList,
        .arr [.str "Kim".toList, .num 3, .str " Lee ".toList, .str "Kim".toList]),
      ("noRepeat".toList, .str "yes".toList),
      ("sound".toList, .bool true),
      ("history".toList, .arr [.str "Zed".toList, .str "Kim".toList]) ]

/-- A stand-in for `JSON.parse`: it rejects the unparseable text of the
scenario and reads any other text as `samplePayload`. -/
def sampleParse (r : Str) : Option Json :=
  if r = "\x7bnot json".toList then none else some samplePayload

/-! ## Failing inputs of the no-repeat pool -/

/-- C1, evaluated at the failing input: on a first visit, after the roster
`A,B` is saved, `A` is drawn twice with repeats allowed, no-repeat is switched
on and the last draw is undone, the session has no-repeat on and `A` in its
history, and the next draw commits `A` again. -/
theorem noRepeat_repeats_after_undo :
    run freshMachine undoAfterRepeatEvents = some undoAfterRepeatMachine
      ∧ undoAfterRepeatMachine.state.noRepeat = true
      ∧ nameA ∈ undoAfterRepeatMachine.state.history
      ∧ (drawOnce undoAfterRepeatMachine ⟨0, 1⟩).map (fun m => m.state.noRepeat) = some true
      ∧ (drawOnce undoAfterRepeatMachine ⟨0, 1⟩).map (fun m => m.state.history)
          = some [nameA, nameA] := by
  decide

/-- C2, evaluated at the failing input: a roster saved between the start of a
draw and its completion leaves the pending draw in place, and the completion
commits a name of the old roster, so `history` holds a name that is not in
`names`. -/
theorem history_leaves_roster_on_save_during_draw :
    (run freshMachine saveDuringDrawEvents).map (fun m => m.state.names)
        = some ["C".toList, "D".toList]
      ∧ (run freshMachine saveDuringDrawEvents).map (fun m => m.state.history)
        = some [nameA]
      ∧ nameA ∉ ["C".toList, "D".toList] := by
  decide

/-- C3, evaluated at the failing input: after `undo` in the session of
`undoAfterRepeatEvents`, no-repeat is on and `remaining` is `[A, B]`, while
`computeRemainingBase` gives `[B]`. -/
theorem pool_differs_from_base_after_undo :
    run freshMachine undoAfterRepeatEvents = some undoAfterRepeatMachine
      ∧ undoAfterRepeatMachine.state.noRepeat = true
      ∧ undoAfterRepeatMachine.state.remaining = [nameA, nameB]
      ∧ computeRemainingBase undoAfterRepeatMachine.state = [nameB] := by
  decide

/-! ## Rejected rosters and blocked operations -/

/-- C4: when `parseNames` gives fewer than two names, `onSaveNames` returns
the machine it was given: `names`, `noRepeat`, `sound`, `remaining` and
`history` (and the drawing guard) keep their values. -/
theorem onSaveNames_rejected_unchanged (m : Machine) (text : Str)
    (h : (parseNames text).length < 2) :
    onSaveNames m text = m
      ∧ (onSaveNames m text).state.names = m.state.names
      ∧ (onSaveNames m text).state.noRepeat = m.state.noRepeat
      ∧ (onSaveNames m text).state.sound = m.state.sound
      ∧ (onSaveNames m text).state.remaining = m.state.remaining
      ∧ (onSaveNames m text).state.history = m.state.history := by
  have e : onSaveNames m text = m := by simp [onSaveNames, h]
  simp [e]

/-- Witness of C4: a text whose only name is written twice is rejected, and
the session with one name drawn stays as it is. -/
theorem onSaveNames_rejected_unchanged_witness :
    (parseNames "Kim ,, Kim".toList).length < 2
      ∧ onSaveNames secondDrawMachine "Kim ,, Kim".toList = secondDrawMachine :=
  ⟨by decide,
    (onSaveNames_rejected_unchanged secondDrawMachine "Kim ,, Kim".toList (by decide)).1⟩

/-- C10 as stated fails: in a reachable session with a draw in progress,
`resetDrawOnly` ends the draw and clears `history`. -/
theorem reset_during_draw_not_ignored :
    run freshMachine secondDrawEvents = some secondDrawMachine
      ∧ secondDrawMachine.isDrawing = true
      ∧ (resetDrawOnly secondDrawMachine).isDrawing = false
      ∧ secondDrawMachine.state.history = [nameA]
      ∧ (resetDrawOnly secondDrawMachine).state.history = []
      ∧ resetDrawOnly secondDrawMachine ≠ secondDrawMachine := by
  decide

/-- C10, amended: a draw requested during a draw, a draw requested with
no-repeat on and an empty pool, and an undo requested during a draw return the
machine unchanged; `resetDrawOnly` is never ignored: it cancels the pending
draw without a winner, clears `history` and recomputes `remaining`, keeping
`names`, `noRepeat` and `sound`. -/
theorem blocked_operations (m : Machine) :
    (m.isDrawing = true → startDraw m = m)
      ∧ (m.state.noRepeat = true → m.state.remaining = [] → startDraw m = m)
      ∧ (m.isDrawing = true → undo m = m)
      ∧ resetDrawOnly m =
          { state := { m.state with
                        history := []
                        remaining := computeRemainingBase { m.state with history := [] } }
            isDrawing := false
            drawStopper := none } := by
  refine ⟨?_, ?_, ?_, rfl⟩
  · intro h; simp [startDraw, h]
  · intro h1 h2; simp [startDraw, h1, h2]
  · intro h; simp [undo, h]

/-- Witness of C10, amended: the three blocked requests at concrete machines,
one with a draw in progress and one with an exhausted pool. -/
theorem blocked_operations_witness :
    startDraw secondDrawMachine = secondDrawMachine
      ∧ startDraw exhaustedMachine = exhaustedMachine
      ∧ undo secondDrawMachine = secondDrawMachine :=
  ⟨(blocked_operations secondDrawMachine).1 (by decide),
    (blocked_operations exhaustedMachine).2.1 (by decide) (by decide),
    (blocked_operations secondDrawMachine).2.2.1 (by decide)⟩

/-! ## Normalisation of names -/

theorem normalizeLoop_eq (xs seen out : List Str) :
    normalizeLoop seen out xs
      = out ++ (keepFirst ((xs.map normWs).filter (fun s => s ≠ []))).filter
          (fun y => decide (y ∉ seen)) := by
  induction xs generalizing seen out with
  | nil => simp [normalizeLoop, keepFirst]
  | cons x xs ih =>
    by_cases h0 : normWs x = []
    · simp [normalizeLoop, h0, ih]
    · by_cases h1 : normWs x ∈ seen
      · simp only [normalizeLoop, h0, h1, if_true, if_false, ih, List.map_cons,
          List.filter_cons, keepFirst, ne_eq, not_false_eq_true, decide_True,
          decide_False, not_true_eq_false, Bool.false_eq_true, List.filter_filter]
        congr 1
        apply List.filter_congr
        intro y _
        by_cases hy : y ∈ seen
        · simp [hy]
        · have : y ≠ normWs x := fun e => hy (e ▸ h1)
          simp [hy, this]
      · simp only [normalizeLoop, h0, h1, if_true, if_false, ih, List.map_cons,
          List.filter_cons, keepFirst, ne_eq, not_false_eq_true, decide_True,
          decide_False, not_true_eq_false, Bool.false_eq_true, List.filter_filter,
          List.append_assoc, List.singleton_append]
        congr 2
        apply List.filter_congr
        intro y _
        by_cases hy : y ∈ seen <;> by_cases hy2 : y = normWs x <;> simp [hy, hy2]

theorem normalizeNames_eq (xs : List Str) :
    normalizeNames xs = keepFirst ((xs.map normWs).filter (fun s => s ≠ [])) := by
  simp [normalizeNames, normalizeLoop_eq]

theorem mem_keepFirst (xs : List Str) (y : Str) : y ∈ keepFirst xs ↔ y ∈ xs := by
  induction xs with
  | nil => simp [keepFirst]
  | cons x xs ih =>
    by_cases h : y = x <;> simp [keepFirst, ih, h]

theorem nodup_keepFirst (xs : List Str) : (keepFirst xs).Nodup := by
  induction xs with
  | nil => simp [keepFirst]
  | cons x xs ih =>
    simp only [keepFirst, List.nodup_cons]
    exact ⟨by simp, ih.filter _⟩

theorem keepFirst_of_nodup (xs : List Str) (h : xs.Nodup) : keepFirst xs = xs := by
  induction xs with
  | nil => simp [keepFirst]
  | cons x xs ih =>
    rw [List.nodup_cons] at h
    simp only [keepFirst, ih h.2, List.cons.injEq, true_and]
    rw [List.filter_eq_self]
    intro y hy
    have : y ≠ x := fun e => h.1 (e ▸ hy)
    simp [this]

/-! ## White space -/

theorem isWs_space : isWs ' ' = true := by decide

theorem isWs_cr : isWs '\r' = true := by decide

theorem trimmed_trim (s : Str) : Trimmed (trim s) := by
  constructor
  · intro c hc
    unfold trim at hc
    have hp : (s.dropWhile isWs).rdropWhile isWs <+: s.dropWhile isWs :=
      List.rdropWhile_prefix _ _
    obtain ⟨t, ht⟩ := hp
    cases hr : (s.dropWhile isWs).rdropWhile isWs with
    | nil => rw [hr] at hc; simp at hc
    | cons a l =>
      rw [hr] at hc ht
      simp at hc
      subst hc
      have hd : (s.dropWhile isWs).head? = some a := by rw [← ht]; rfl
      have := List.head?_dropWhile_not isWs s
      rw [hd] at this
      simpa using this
  · intro c hc
    unfold trim at hc
    by_cases hn : (s.dropWhile isWs).rdropWhile isWs = []
    · rw [hn] at hc; simp at hc
    · have := List.rdropWhile_last_not isWs (s.dropWhile isWs) hn
      rw [List.getLast?_eq_getLast _ hn] at hc
      simp at hc
      rw [← hc]
      simpa using this

theorem trim_of_trimmed (s : Str) (h : Trimmed s) : trim s = s := by
  have h1 : s.dropWhile isWs = s := by
    cases s with
    | nil => rfl
    | cons a l =>
      have := h.1 a (by simp)
      simp [List.dropWhile, this]
  unfold trim
  rw [h1, List.rdropWhile_eq_self_iff]
  intro hl
  have := h.2 (s.getLast hl) (by simp [List.getLast?_eq_getLast _ hl])
  simp [this]

theorem collapseFrom_concat (s : Str) (b : Bool) (c : Char) (hc : isWs c = false) :
    collapseFrom b (s ++ [c]) = collapseFrom b s ++ [c] := by
  induction s generalizing b with
  | nil => simp [collapseFrom, hc]
  | cons a l ih =>
    by_cases ha : isWs a = true
    · cases b <;> simp [collapseFrom, ha, ih]
    · simp [collapseFrom, ha, ih]

theorem trimmed_collapseWs (s : Str) (h : Trimmed s) : Trimmed (collapseWs s) := by
  constructor
  · intro c hc
    cases s with
    | nil => simp [collapseWs, collapseFrom] at hc
    | cons a l =>
      have ha := h.1 a (by simp)
      simp [collapseWs, collapseFrom, ha] at hc
      rw [← hc]; exact ha
  · intro c hc
    rcases List.eq_nil_or_concat s with hs | ⟨l, a, hs⟩
    · subst hs; simp [collapseWs, collapseFrom] at hc
    · rw [List.concat_eq_append] at hs
      subst hs
      have ha := h.2 a (by simp)
      rw [collapseWs, collapseFrom_concat _ _ _ ha] at hc
      simp at hc
      rw [← hc]; exact ha

theorem collapseFrom_shape (s : Str) (b : Bool) :
    NoWsPair (collapseFrom b s) ∧ OnlySpaces (collapseFrom b s)
      ∧ (b = true → ∀ c ∈ (collapseFrom b s).head?, isWs c = false) := by
  induction s generalizing b with
  | nil => simp [collapseFrom, NoWsPair, OnlySpaces]
  | cons a l ih =>
    by_cases ha : isWs a = true
    · cases b
      · obtain ⟨h1, h2, h3⟩ := ih true
        simp only [collapseFrom, ha, if_true, Bool.false_eq_true, if_false]
        refine ⟨?_, ?_, by simp⟩
        · unfold NoWsPair
          rw [List.chain'_cons']
          refine ⟨?_, h1⟩
          intro y hy
          have := h3 rfl y hy
          simp [this]
        · intro c hc
          rcases List.mem_cons.1 hc with e | e
          · intro _; exact e
          · exact h2 c e
      · simpa [collapseFrom, ha] using ih true
    · obtain ⟨h1, h2, _⟩ := ih false
      simp only [collapseFrom, ha, Bool.false_eq_true, if_false]
      refine ⟨?_, ?_, ?_⟩
      · unfold NoWsPair
        rw [List.chain'_cons']
        exact ⟨fun y _ => by simp [ha], h1⟩
      · intro c hc
        rcases List.mem_cons.1 hc with e | e
        · intro hw; rw [e] at hw; exact absurd hw ha
        · exact h2 c e
      · intro _ c hc
        simp at hc
        rw [← hc]; simpa using ha

theorem collapseFrom_fixed (s : Str) (b : Bool)
    (hb : b = true → ∀ c ∈ s.head?, isWs c = false)
    (h1 : NoWsPair s) (h2 : OnlySpaces s) : collapseFrom b s = s := by
  induction s generalizing b with
  | nil => simp [collapseFrom]
  | cons a l ih =>
    unfold NoWsPair at h1
    rw [List.chain'_cons'] at h1
    have h2l : OnlySpaces l := fun c hc => h2 c (List.mem_cons_of_mem _ hc)
    by_cases ha : isWs a = true
    · have hbf : b = false := by
        cases b
        · rfl
        · have := hb rfl a (by simp)
          rw [this] at ha; exact absurd ha (by simp)
      have ea : a = ' ' := h2 a (by simp) ha
      subst hbf
      simp only [collapseFrom, ha, if_true, Bool.false_eq_true, if_false]
      rw [ih true ?_ h1.2 h2l, ea]
      intro _ c hc
      have := h1.1 c hc
      simp [ha] at this
      simpa using this
    · simp only [collapseFrom, ha, Bool.false_eq_true, if_false]
      rw [ih false (by simp) h1.2 h2l]

theorem trim_inside (s : Str) : trim s <:+: s := by
  have h1 : (s.dropWhile isWs).rdropWhile isWs <+: s.dropWhile isWs :=
    List.rdropWhile_prefix _ _
  have h2 : s.dropWhile isWs <:+ s := List.dropWhile_suffix _
  obtain ⟨t, ht⟩ := h1
  obtain ⟨u, hu⟩ := h2
  exact ⟨u, t, by rw [List.append_assoc, trim, ht, hu]⟩

/-- The shape of a normalised entry. -/
theorem normWs_shape (x : Str) :
    Trimmed (normWs x) ∧ NoWsPair (normWs x) ∧ OnlySpaces (normWs x) := by
  obtain ⟨h1, h2, _⟩ := collapseFrom_shape x false
  refine ⟨trimmed_trim _, List.Chain'.infix h1 (trim_inside _), ?_⟩
  intro c hc
  exact h2 c ((trim_inside _).subset hc)

theorem normWs_of_shape (s : Str) (h : Trimmed s) (h1 : NoWsPair s) (h2 : OnlySpaces s) :
    normWs s = s := by
  unfold normWs collapseWs
  rw [collapseFrom_fixed s false (by simp) h1 h2, trim_of_trimmed s h]

theorem normWs_idem (x : Str) : normWs (normWs x) = normWs x := by
  obtain ⟨h, h1, h2⟩ := normWs_shape x
  exact normWs_of_shape _ h h1 h2

theorem normWs_collapse_trim (p : Str) : normWs (trim p) = collapseWs (trim p) := by
  unfold normWs
  exact trim_of_trimmed _ (trimmed_collapseWs _ (trimmed_trim p))

/-! ## Splitting -/

theorem trim_concat_ws (a : Str) (c : Char) (hc : isWs c = true) :
    trim (a ++ [c]) = trim a := by
  induction a with
  | nil => simp [trim, List.dropWhile, hc, List.rdropWhile_nil]
  | cons x xs ih =>
    by_cases hx : isWs x = true
    · have e1 : trim (x :: xs ++ [c]) = trim (xs ++ [c]) := by
        simp [trim, List.dropWhile, hx]
      have e2 : trim (x :: xs) = trim xs := by
        simp [trim, List.dropWhile, hx]
      rw [e1, e2, ih]
    · have e1 : (x :: xs ++ [c]).dropWhile isWs = (x :: xs) ++ [c] := by
        simp [List.dropWhile, hx]
      have e2 : (x :: xs).dropWhile isWs = x :: xs := by
        simp [List.dropWhile, hx]
      unfold trim
      rw [e1, e2, List.rdropWhile_concat_pos _ _ _ hc]

theorem splitSep_cons_rel (c : Char) (xs ys : Str)
    (h : List.Forall₂ CrTail (splitSep xs) (splitSep ys)) :
    List.Forall₂ CrTail (splitSep (c :: xs)) (splitSep (c :: ys)) := by
  by_cases hc : isSep c = true
  · simp only [splitSep, hc, if_true]
    exact List.Forall₂.cons (Or.inl rfl) h
  · simp only [splitSep, hc, Bool.false_eq_true, if_false]
    generalize splitSep xs = px at h
    generalize splitSep ys = py at h
    cases h with
    | nil => exact List.Forall₂.cons (Or.inl rfl) List.Forall₂.nil
    | cons hab hrest =>
      refine List.Forall₂.cons ?_ hrest
      rcases hab with e | e
      · exact Or.inl (by rw [e])
      · exact Or.inr (by rw [e]; rfl)

theorem forall₂_crTail_refl (l : List Str) : List.Forall₂ CrTail l l := by
  induction l with
  | nil => exact List.Forall₂.nil
  | cons a l ih => exact List.Forall₂.cons (Or.inl rfl) ih

theorem splitSep_replaceCRLF (text : Str) :
    List.Forall₂ CrTail (splitSep (replaceCRLF text)) (splitSep text) := by
  induction text using replaceCRLF.induct with
  | case1 => exact forall₂_crTail_refl _
  | case2 c => exact forall₂_crTail_refl _
  | case3 c d cs h ih =>
    obtain ⟨hc, hd⟩ := h
    subst hc hd
    have e1 : replaceCRLF ('\r' :: '\n' :: cs) = '\n' :: replaceCRLF cs := by
      simp [replaceCRLF]
    have e2 : splitSep ('\n' :: replaceCRLF cs) = [] :: splitSep (replaceCRLF cs) := by
      simp [splitSep, isSep]
    have e3 : splitSep ('\r' :: '\n' :: cs) = ['\r'] :: splitSep cs := by
      have h1 : isSep '\r' = false := by decide
      have h2 : isSep '\n' = true := by decide
      simp [splitSep, h1, h2]
    rw [e1, e2, e3]
    exact List.Forall₂.cons (Or.inr rfl) ih
  | case4 c d cs h ih =>
    have e1 : replaceCRLF (c :: d :: cs) = c :: replaceCRLF (d :: cs) := by
      simp only [replaceCRLF, h, if_false]
    rw [e1]
    exact splitSep_cons_rel c _ _ ih

theorem map_trim_of_crTail (l₁ l₂ : List Str) (h : List.Forall₂ CrTail l₁ l₂) :
    l₁.map trim = l₂.map trim := by
  induction h with
  | nil => rfl
  | cons hab _ ih =>
    simp only [List.map_cons, ih, List.cons.injEq, and_true]
    rcases hab with e | e
    · rw [e]
    · rw [e, trim_concat_ws _ _ isWs_cr]

theorem parseNames_eq_rosterOfText (text : Str) : parseNames text = rosterOfText text := by
  unfold parseNames rosterOfText
  simp only [normalizeNames_eq]
  rw [map_trim_of_crTail _ _ (splitSep_replaceCRLF text)]
  congr 1
  generalize splitSep text = ps
  induction ps with
  | nil => rfl
  | cons p ps ih =>
    by_cases hp : trim p = []
    · have hc : collapseWs ([] : Str) = [] := rfl
      simp only [List.map_cons, List.filter_cons, hp, hc, ne_eq, not_true_eq_false,
        decide_False, Bool.false_eq_true, if_false]
      exact ih
    · simp only [List.map_cons, List.filter_cons, hp, ne_eq, not_false_eq_true, decide_True,
        if_true, normWs_collapse_trim]
      by_cases hq : collapseWs (trim p) = []
      · simpa [hq] using ih
      · simpa [hq] using ih

/-! ## Draws and undos in no-repeat mode -/

theorem pickOne_mem (arr : List Str) (u : Rnd) (hu : u.inRange = true) (ha : arr ≠ []) :
    ∃ w, pickOne arr u = some w ∧ w ∈ arr := by
  have hlt : u.num < u.den := by simpa [Rnd.inRange] using hu
  have hpos : 0 < arr.length := List.length_pos.2 ha
  have hidx : (randInt 0 ((arr.length : Int) - 1) u).toNat = u.num * arr.length / u.den := by
    unfold randInt
    have : ((u.num : Int) * ((arr.length : Int) - 1 - 0 + 1) / (u.den : Int) + 0)
        = ((u.num * arr.length / u.den : Nat) : Int) := by
      push_cast
      ring_nf
    rw [this, Int.toNat_natCast]
  have hb : u.num * arr.length / u.den < arr.length := by
    apply Nat.div_lt_of_lt_mul
    exact Nat.mul_lt_mul_of_pos_right hlt hpos
  refine ⟨arr.get ⟨_, hb⟩, ?_, List.get_mem _ _ _⟩
  unfold pickOne
  rw [hidx, List.get?_eq_get hb]

theorem pickOne_some_mem (arr : List Str) (u : Rnd) (w : Str) (h : pickOne arr u = some w) :
    w ∈ arr := by
  unfold pickOne at h
  exact List.get?_mem h

theorem drawOnce_some (m m1 : Machine) (u : Rnd) (hi : Idle m)
    (hnr : m.state.noRepeat = true) (h : drawOnce m u = some m1) :
    ∃ w ∈ m.state.remaining,
      m1 = { state := applyWinner m.state w, isDrawing := false, drawStopper := none } := by
  obtain ⟨hd, hs⟩ := hi
  unfold drawOnce startDraw at h
  simp only [hd, Bool.false_eq_true, if_false, hnr, Bool.true_and, if_true] at h
  by_cases hn : m.state.names.length = 0
  · simp [hn, drawDone, hs] at h
  · by_cases hr : m.state.remaining.length = 0
    · simp [hn, hr, drawDone, hs] at h
    · simp only [hn, hr, if_false, decide_False, Bool.false_eq_true, drawDone,
        stopAnimation] at h
      by_cases hu : u.inRange = true
      · simp only [hu, if_true] at h
        cases hp : pickOne m.state.remaining u with
        | none => simp [hp] at h
        | some w =>
          simp only [hp, Option.some.injEq] at h
          exact ⟨w, pickOne_some_mem _ _ _ hp, h.symm⟩
      · simp [hu] at h

theorem drawOnce_progress (m : Machine) (u : Rnd) (hi : Idle m)
    (hnr : m.state.noRepeat = true) (hn : m.state.names ≠ [])
    (hr : m.state.remaining ≠ []) (hu : u.inRange = true) :
    ∃ m1, drawOnce m u = some m1 := by
  obtain ⟨hd, _⟩ := hi
  obtain ⟨w, hw, _⟩ := pickOne_mem m.state.remaining u hu hr
  refine ⟨{ state := applyWinner m.state w, isDrawing := false, drawStopper := none }, ?_⟩
  unfold drawOnce startDraw
  simp [hd, hnr, hn, hr, drawDone, hu, hw, stopAnimation]

theorem perm_cons_filter_ne (l : List Str) (w : Str) (hw : w ∈ l) (hl : l.Nodup) :
    l.Perm (w :: l.filter (fun n => decide (n ≠ w))) := by
  induction l with
  | nil => simp at hw
  | cons x xs ih =>
    rw [List.nodup_cons] at hl
    by_cases hx : x = w
    · subst hx
      have e : xs.filter (fun n => decide (n ≠ x)) = xs := by
        rw [List.filter_eq_self]
        intro y hy
        have : y ≠ x := fun e => hl.1 (e ▸ hy)
        simp [this]
      simp only [List.filter_cons, ne_eq, not_true_eq_false, decide_False,
        Bool.false_eq_true, if_false]
      rw [show xs.filter (fun n => decide (¬n = x)) = xs from e]
    · have hw2 : w ∈ xs := by
        rcases List.mem_cons.1 hw with e | e
        · exact absurd e.symm hx
        · exact e
      have := ih hw2 hl.2
      simp only [List.filter_cons, hx, ne_eq, not_false_eq_true, decide_True, if_true]
      exact (List.Perm.cons x this).trans (List.Perm.swap w x _)

theorem poolInv_applyWinner (roster : List Str) (m : Machine) (w : Str)
    (hr : roster.Nodup) (h : PoolInv roster m) (hw : w ∈ m.state.remaining) :
    PoolInv roster { state := applyWinner m.state w, isDrawing := false, drawStopper := none } := by
  obtain ⟨_, hnr, hnames, hperm⟩ := h
  have hnd : (m.state.history ++ m.state.remaining).Nodup := hperm.nodup_iff.2 hr
  have hrem : m.state.remaining.Nodup := (List.nodup_append.1 hnd).2.1
  refine ⟨⟨rfl, rfl⟩, ?_, ?_, ?_⟩
  · simp [applyWinner, hnr]
  · simp [applyWinner, hnr, hnames]
  · simp only [applyWinner, hnr, if_true]
    refine List.Perm.trans ?_ hperm
    rw [List.append_assoc]
    exact List.Perm.append_left _ (perm_cons_filter_ne _ _ hw hrem).symm

theorem length_history_applyWinner (s : State) (w : Str) :
    (applyWinner s w).history.length = s.history.length + 1 := by
  by_cases h : s.noRepeat = true <;> simp [applyWinner, h]

theorem drawMany_inv (roster : List Str) (hr : roster.Nodup) (us : List Rnd)
    (m m1 : Machine) (h : PoolInv roster m) (hd : drawMany m us = some m1) :
    PoolInv roster m1 ∧ m1.state.history.length = m.state.history.length + us.length := by
  induction us generalizing m with
  | nil =>
    simp only [drawMany, Option.some.injEq] at hd
    subst hd
    exact ⟨h, rfl⟩
  | cons u us ih =>
    unfold drawMany at hd
    cases hdo : drawOnce m u with
    | none => simp [hdo] at hd
    | some m2 =>
      simp only [hdo] at hd
      obtain ⟨w, hw, e⟩ := drawOnce_some m m2 u h.1 h.2.1 hdo
      have h2 : PoolInv roster m2 := e ▸ poolInv_applyWinner roster m w hr h hw
      obtain ⟨h3, h4⟩ := ih m2 h2 hd
      refine ⟨h3, ?_⟩
      rw [h4, e]
      simp only [length_history_applyWinner, List.length_cons]
      omega

theorem poolInv_length (roster : List Str) (m : Machine) (h : PoolInv roster m) :
    m.state.history.length + m.state.remaining.length = roster.length := by
  rw [← List.length_append]
  exact h.2.2.2.length_eq

theorem drawMany_progress (roster : List Str) (hr : roster.Nodup) (us : List Rnd)
    (m : Machine) (h : PoolInv roster m) (hu : ∀ u ∈ us, u.inRange = true)
    (hl : us.length ≤ m.state.remaining.length) :
    ∃ m1, drawMany m us = some m1 := by
  induction us generalizing m with
  | nil => exact ⟨m, rfl⟩
  | cons u us ih =>
    have hrem : m.state.remaining ≠ [] := by
      intro e; rw [e] at hl; simp at hl
    have hnames : m.state.names ≠ [] := by
      intro e
      have := poolInv_length roster m h
      have hz : roster.length = 0 := by rw [← h.2.2.1, e]; rfl
      have h0 : 0 < m.state.remaining.length := List.length_pos.2 hrem
      omega
    obtain ⟨m2, hdo⟩ := drawOnce_progress m u h.1 h.2.1 hnames hrem (hu u (by simp))
    obtain ⟨w, hw, e⟩ := drawOnce_some m m2 u h.1 h.2.1 hdo
    have h2 : PoolInv roster m2 := e ▸ poolInv_applyWinner roster m w hr h hw
    have hlen2 : us.length ≤ m2.state.remaining.length := by
      have a := poolInv_length roster m h
      have b := poolInv_length roster m2 h2
      have c : m2.state.history.length = m.state.history.length + 1 := by
        rw [e]; exact length_history_applyWinner _ _
      simp only [List.length_cons] at hl
      omega
    obtain ⟨m3, h3⟩ := ih m2 h2 (fun v hv => hu v (List.mem_cons_of_mem _ hv)) hlen2
    exact ⟨m3, by simp [drawMany, hdo, h3]⟩

theorem poolInv_undo (roster : List Str) (hr : roster.Nodup) (m : Machine)
    (h : PoolInv roster m) (hh : m.state.history ≠ []) :
    PoolInv roster (undo m)
      ∧ (undo m).state.history.length + 1 = m.state.history.length := by
  obtain ⟨⟨hd, hs⟩, hnr, hnames, hperm⟩ := h
  have hnd : (m.state.history ++ m.state.remaining).Nodup := hperm.nodup_iff.2 hr
  rcases List.eq_nil_or_concat m.state.history with e | ⟨init, last, e⟩
  · exact absurd e hh
  · rw [List.concat_eq_append] at e
    have hlast : last ∉ m.state.remaining := by
      intro hmem
      rw [e] at hnd
      exact (List.nodup_append.1 hnd).2.2 (by simp) hmem
    have hin : last ∈ m.state.names := by
      rw [hnames]
      exact hperm.subset (by rw [e]; simp)
    have hu : undo m =
        { m with state := { m.state with history := init, remaining := last :: m.state.remaining } } := by
      unfold undo
      simp [e, hd, hnr, hlast, hin]
    rw [hu]
    refine ⟨⟨⟨hd, hs⟩, hnr, hnames, ?_⟩, by simp [e]⟩
    refine List.Perm.trans ?_ hperm
    rw [e]
    simp only [List.append_assoc, List.singleton_append]
    exact List.Perm.refl _

theorem undoMany_inv (roster : List Str) (hr : roster.Nodup) (k : Nat) (m : Machine)
    (h : PoolInv roster m) (hk : k ≤ m.state.history.length) :
    PoolInv roster (undoMany m k)
      ∧ (undoMany m k).state.history.length + k = m.state.history.length := by
  induction k generalizing m with
  | zero => exact ⟨h, rfl⟩
  | succ k ih =>
    have hh : m.state.history ≠ [] := by
      intro e; rw [e] at hk; simp at hk
    obtain ⟨h1, h2⟩ := poolInv_undo roster hr m h hh
    obtain ⟨h3, h4⟩ := ih (undo m) h1 (by omega)
    have e : undoMany m (k + 1) = undoMany (undo m) k := rfl
    rw [e]
    exact ⟨h3, by omega⟩

theorem nodup_parseNames (text : Str) : (parseNames text).Nodup := by
  unfold parseNames
  rw [normalizeNames_eq]
  exact nodup_keepFirst _

theorem poolInv_onSaveNames (m : Machine) (text : Str) (hi : Idle m)
    (hnr : m.state.noRepeat = true) (hlen : 2 ≤ (parseNames text).length) :
    PoolInv (parseNames text) (onSaveNames m text)
      ∧ (onSaveNames m text).state.history = [] := by
  have hl : ¬ (parseNames text).length < 2 := by omega
  unfold onSaveNames
  simp only [hl, if_false]
  refine ⟨⟨hi, ?_, ?_, ?_⟩, ?_⟩ <;>
    simp [ensureRemaining, computeRemainingBase, hnr]

/-! ## The roster -/

/-- C5: `parseNames` returns the roster as the specification words it (the
pieces between newlines and commas, trimmed, white-space runs collapsed,
empty pieces dropped, later duplicates removed, `rosterOfText`); no entry
occurs twice, and every entry is non-empty, has no white space at either end
and no two adjacent white-space characters; an entry is in the result exactly
when it is a non-empty normalised piece. -/
theorem parseNames_normalizes (text : Str) :
    parseNames text = rosterOfText text
      ∧ (parseNames text).Nodup
      ∧ (∀ n ∈ parseNames text, n ≠ [] ∧ Trimmed n ∧ NoWsPair n)
      ∧ (∀ n, n ∈ parseNames text ↔
          n ≠ [] ∧ ∃ p ∈ splitSep text, n = collapseWs (trim p)) := by
  have hmem : ∀ n, n ∈ parseNames text ↔
      n ≠ [] ∧ ∃ p ∈ splitSep text, n = collapseWs (trim p) := by
    intro n
    rw [parseNames_eq_rosterOfText, rosterOfText, mem_keepFirst]
    simp only [List.mem_filter, List.mem_map, ne_eq, decide_not, Bool.not_eq_true',
      decide_eq_false_iff_not]
    constructor
    · rintro ⟨⟨p, hp, e⟩, hn⟩
      exact ⟨hn, p, hp, e.symm⟩
    · rintro ⟨hn, p, hp, e⟩
      exact ⟨⟨p, hp, e.symm⟩, hn⟩
  refine ⟨parseNames_eq_rosterOfText text, nodup_parseNames text, ?_, hmem⟩
  intro n hn
  obtain ⟨hne, p, _, e⟩ := (hmem n).1 hn
  rw [e, ← normWs_collapse_trim]
  rw [e, ← normWs_collapse_trim] at hne
  obtain ⟨h1, h2, _⟩ := normWs_shape (trim p)
  exact ⟨hne, h1, h2⟩

/-- Witness of C5: the roster of an untidy text, and the shape of its entry
`Park Jr`. -/
theorem parseNames_normalizes_witness :
    parseNames untidyText = ["Kim".toList, "Lee".toList, "Park Jr".toList]
      ∧ Trimmed "Park Jr".toList ∧ NoWsPair "Park Jr".toList :=
  ⟨by decide,
    ((parseNames_normalizes untidyText).2.2.1 "Park Jr".toList (by decide)).2.1,
    ((parseNames_normalizes untidyText).2.2.1 "Park Jr".toList (by decide)).2.2⟩

/-! ## Exhaustion and undo -/

/-- Exhaustion from an idle save: when a roster of `n ≥ 2` names is saved with
no-repeat on and no draw pending, then for all random values `n` whole draws
succeed, and after them
`history` holds every roster name exactly once and has length `n`,
`remaining` is empty, and a further `startDraw` returns the machine
unchanged, not drawing. -/
theorem noRepeat_exhaustion (m : Machine) (text : Str) (us : List Rnd)
    (hi : Idle m) (hnr : m.state.noRepeat = true)
    (hlen : 2 ≤ (parseNames text).length)
    (hus : us.length = (parseNames text).length)
    (hu : ∀ u ∈ us, u.inRange = true) :
    ∃ m1, drawMany (onSaveNames m text) us = some m1
      ∧ m1.state.names = parseNames text
      ∧ m1.state.history.Perm (parseNames text)
      ∧ m1.state.history.Nodup
      ∧ m1.state.history.length = (parseNames text).length
      ∧ m1.state.remaining = []
      ∧ startDraw m1 = m1
      ∧ (startDraw m1).isDrawing = false := by
  have hr := nodup_parseNames text
  obtain ⟨h0, hh0⟩ := poolInv_onSaveNames m text hi hnr hlen
  have hl0 := poolInv_length _ _ h0
  rw [hh0] at hl0
  simp only [List.length_nil, Nat.zero_add] at hl0
  obtain ⟨m1, hd⟩ := drawMany_progress _ hr us _ h0 hu (by omega)
  obtain ⟨h1, hl1⟩ := drawMany_inv _ hr us _ m1 h0 hd
  have hl2 := poolInv_length _ _ h1
  rw [hh0] at hl1
  simp only [List.length_nil, Nat.zero_add] at hl1
  have hrem : m1.state.remaining = [] := List.length_eq_zero.1 (by omega)
  have hperm := h1.2.2.2
  rw [hrem, List.append_nil] at hperm
  have hs : startDraw m1 = m1 := by simp [startDraw, h1.2.1, hrem]
  refine ⟨m1, hd, h1.2.2.1, hperm, hperm.nodup_iff.2 hr, by omega, hrem, hs, ?_⟩
  rw [hs]; exact h1.1.1

/-- The scenario of the specification: the roster `Kim, Lee, Park` on a first
visit, three draws, and the fourth `startDraw`. -/
theorem noRepeat_exhaustion_witness :
    ∃ m1, drawMany (onSaveNames freshMachine kimLeeParkText) threeDraws = some m1
      ∧ m1.state.names = parseNames kimLeeParkText
      ∧ m1.state.history.Perm (parseNames kimLeeParkText)
      ∧ m1.state.history.Nodup
      ∧ m1.state.history.length = (parseNames kimLeeParkText).length
      ∧ m1.state.remaining = []
      ∧ startDraw m1 = m1
      ∧ (startDraw m1).isDrawing = false :=
  noRepeat_exhaustion freshMachine kimLeeParkText threeDraws
    (by decide) (by decide) (by decide) (by decide) (by decide)

/-- C6, evaluated at the failing input: on a first visit the roster `A,B` is
saved and a draw is started; the roster `C,D` (two names) is saved with
no-repeat on while that draw is pending.  After two completed draws `history`
is `[A, C]`, which holds `A` and lacks `D`, `remaining` is `[D]`, not empty,
and a further `startDraw` enters the drawing state. -/
theorem exhaustion_fails_on_save_during_draw :
    run freshMachine firstDrawEvents = some firstDrawMachine
      ∧ firstDrawMachine.state.noRepeat = true
      ∧ parseNames "C,D".toList = ["C".toList, "D".toList]
      ∧ drawMany (onSaveNames firstDrawMachine "C,D".toList) [⟨0, 1⟩, ⟨0, 1⟩]
          = some staleWinnerMachine
      ∧ staleWinnerMachine.state.history = [nameA, "C".toList]
      ∧ staleWinnerMachine.state.remaining = ["D".toList]
      ∧ (startDraw staleWinnerMachine).isDrawing = true
      ∧ startDraw staleWinnerMachine ≠ staleWinnerMachine := by
  decide

/-- C7: when a roster is saved with no-repeat on and no draw pending, and
`k` whole draws succeed from that session, then `k` calls of `undo` leave
`history` empty and `remaining` holding exactly the names of the roster, each
once. -/
theorem undo_round_trip (m m2 : Machine) (text : Str) (us : List Rnd)
    (hi : Idle m) (hnr : m.state.noRepeat = true)
    (hlen : 2 ≤ (parseNames text).length)
    (hd : drawMany (onSaveNames m text) us = some m2) :
    (undoMany m2 us.length).state.history = []
      ∧ (undoMany m2 us.length).state.remaining.Perm (parseNames text)
      ∧ (undoMany m2 us.length).state.remaining.Nodup
      ∧ (undoMany m2 us.length).state.names = parseNames text := by
  have hr := nodup_parseNames text
  obtain ⟨h0, hh0⟩ := poolInv_onSaveNames m text hi hnr hlen
  obtain ⟨h1, hl1⟩ := drawMany_inv _ hr us _ m2 h0 hd
  rw [hh0] at hl1
  simp only [List.length_nil, Nat.zero_add] at hl1
  obtain ⟨h2, hl2⟩ := undoMany_inv _ hr us.length m2 h1 (by omega)
  have hh : (undoMany m2 us.length).state.history = [] :=
    List.length_eq_zero.1 (by omega)
  have hperm := h2.2.2.2
  rw [hh, List.nil_append] at hperm
  exact ⟨hh, hperm, hperm.nodup_iff.2 hr, h2.2.2.1⟩

/-- Witness of C7: the roster `Kim, Lee, Park`, the draws of `Kim` and
`Park`, and two undos. -/
theorem undo_round_trip_witness :
    drawMany (onSaveNames freshMachine kimLeeParkText) [⟨0, 1⟩, ⟨1, 2⟩] = some twoDrawnMachine
      ∧ (undoMany twoDrawnMachine 2).state.history = []
      ∧ (undoMany twoDrawnMachine 2).state.remaining.Perm (parseNames kimLeeParkText) :=
  ⟨by decide,
    (undo_round_trip freshMachine twoDrawnMachine kimLeeParkText [⟨0, 1⟩, ⟨1, 2⟩]
      (by decide) (by decide) (by decide) (by decide)).1,
    (undo_round_trip freshMachine twoDrawnMachine kimLeeParkText [⟨0, 1⟩, ⟨1, 2⟩]
      (by decide) (by decide) (by decide) (by decide)).2.1⟩

/-! ## Loading -/

theorem arrayField_of_ne_null (parsed : Json) (key : Str) (h : parsed ≠ .null) :
    arrayField parsed key = some (fieldArr parsed key) := by
  unfold arrayField fieldArr
  cases hg : getProp parsed key with
  | none => cases parsed <;> simp_all [getProp]
  | some v =>
    cases v with
    | none => rfl
    | some j => cases j <;> rfl

theorem boolField_of_ne_null (parsed : Json) (key : Str) (dflt : Bool) (h : parsed ≠ .null) :
    boolField parsed key dflt = some (fieldBool parsed key dflt) := by
  unfold boolField fieldBool
  cases hg : getProp parsed key with
  | none => cases parsed <;> simp_all [getProp]
  | some v =>
    cases v with
    | none => rfl
    | some j => cases j <;> rfl

theorem loadParsed_null : loadParsed .null = none := rfl

theorem loadParsed_of_ne_null (parsed : Json) (h : parsed ≠ .null) :
    loadParsed parsed = some
      { names := normalizeNames (fieldArr parsed "names".toList)
        noRepeat := fieldBool parsed "noRepeat".toList true
        sound := fieldBool parsed "sound".toList false
        remaining := (normalizeNames (fieldArr parsed "remaining".toList)).filter
          (fun n => decide (n ∈ normalizeNames (fieldArr parsed "names".toList)))
        history := (normalizeNames (fieldArr parsed "history".toList)).filter
          (fun n => decide (n ∈ normalizeNames (fieldArr parsed "names".toList))) } := by
  unfold loadParsed
  simp only [arrayField_of_ne_null _ _ h, boolField_of_ne_null _ _ _ h, defaultState]

theorem normalizeNames_nil : normalizeNames [] = [] := rfl

theorem loadParsed_pruned (parsed : Json) (s : State) (h : loadParsed parsed = some s) :
    (∀ n ∈ s.remaining, n ∈ s.names) ∧ (∀ n ∈ s.history, n ∈ s.names) := by
  by_cases hn : parsed = .null
  · subst hn; simp [loadParsed_null] at h
  · rw [loadParsed_of_ne_null parsed hn, Option.some.injEq] at h
    subst h
    constructor <;> intro n hmem <;> simpa using (List.mem_filter.1 hmem).2

theorem loadParsed_fields (parsed : Json) (s : State) (h : loadParsed parsed = some s) :
    s.names = normalizeNames (fieldArr parsed "names".toList)
      ∧ s.noRepeat = fieldBool parsed "noRepeat".toList true
      ∧ s.sound = fieldBool parsed "sound".toList false
      ∧ s.remaining = (normalizeNames (fieldArr parsed "remaining".toList)).filter
          (fun n => decide (n ∈ s.names))
      ∧ s.history = (normalizeNames (fieldArr parsed "history".toList)).filter
          (fun n => decide (n ∈ s.names)) := by
  by_cases hn : parsed = .null
  · subst hn; simp [loadParsed_null] at h
  · rw [loadParsed_of_ne_null parsed hn, Option.some.injEq] at h
    subst h
    exact ⟨rfl, rfl, rfl, rfl, rfl⟩

theorem fieldArr_default (parsed : Json) (key : Str)
    (h : ∀ items, getProp parsed key ≠ some (some (.arr items))) :
    fieldArr parsed key = [] := by
  unfold fieldArr
  split
  · next items hg => exact absurd hg (h items)
  · rfl

theorem fieldBool_default (parsed : Json) (key : Str) (dflt : Bool)
    (h : ∀ b, getProp parsed key ≠ some (some (.bool b))) :
    fieldBool parsed key dflt = dflt := by
  unfold fieldBool
  split
  · next b hg => exact absurd hg (h b)
  · rfl

/-- The session `loadState` returns is the default one, or comes from a parsed
record. -/
theorem loadState_cases (jsonParse : Str → Option Json) (raw : Option Str) :
    loadState jsonParse raw = defaultState
      ∨ ∃ r parsed, raw = some r ∧ r ≠ [] ∧ jsonParse r = some parsed
          ∧ loadParsed parsed = some (loadState jsonParse raw) := by
  cases raw with
  | none => exact Or.inl rfl
  | some r =>
    by_cases hr : r = []
    · left; simp [loadState, hr]
    · cases hp : jsonParse r with
      | none => left; simp [loadState, hr, hp]
      | some parsed =>
        cases hl : loadParsed parsed with
        | none => left; simp [loadState, hr, hp, hl]
        | some s =>
          right
          exact ⟨r, parsed, rfl, hr, hp, by simp [loadState, hr, hp, hl]⟩

theorem loadState_of_parsed (jsonParse : Str → Option Json) (r : Str) (parsed : Json)
    (hr : r ≠ []) (hp : jsonParse r = some parsed) (hn : parsed ≠ .null) :
    loadParsed parsed = some (loadState jsonParse (some r)) := by
  rw [loadParsed_of_ne_null parsed hn]
  simp [loadState, hr, hp, loadParsed_of_ne_null parsed hn]

/-- C9: `loadState` is a total function of the stored text.  A payload that
is absent, empty or rejected by `JSON.parse` gives the default session.  For
a parsed payload each field whose key is missing or whose value has the wrong
type has its default (`names = []`, `noRepeat = true`, `sound = false`,
`remaining = []`, `history = []`), and a `noRepeat` or `sound` value that is a
boolean is taken over.  In every case the entries of `remaining` and of
`history` are names of the loaded roster. -/
theorem loadState_tolerant (jsonParse : Str → Option Json) (raw : Option Str) :
    ((raw = none ∨ raw = some [] ∨ ∃ r, raw = some r ∧ jsonParse r = none) →
        loadState jsonParse raw = defaultState)
      ∧ (∀ r parsed, raw = some r → jsonParse r = some parsed →
          ((∀ items, getProp parsed "names".toList ≠ some (some (.arr items))) →
              (loadState jsonParse raw).names = [])
            ∧ ((∀ b, getProp parsed "noRepeat".toList ≠ some (some (.bool b))) →
              (loadState jsonParse raw).noRepeat = true)
            ∧ ((∀ b, getProp parsed "sound".toList ≠ some (some (.bool b))) →
              (loadState jsonParse raw).sound = false)
            ∧ ((∀ items, getProp parsed "remaining".toList ≠ some (some (.arr items))) →
              (loadState jsonParse raw).remaining = [])
            ∧ ((∀ items, getProp parsed "history".toList ≠ some (some (.arr items))) →
              (loadState jsonParse raw).history = [])
            ∧ (∀ b, r ≠ [] → getProp parsed "noRepeat".toList = some (some (.bool b)) →
              (loadState jsonParse raw).noRepeat = b)
            ∧ (∀ b, r ≠ [] → getProp parsed "sound".toList = some (some (.bool b)) →
              (loadState jsonParse raw).sound = b)
            ∧ (∀ items, r ≠ [] → getProp parsed "names".toList = some (some (.arr items)) →
              (loadState jsonParse raw).names = normalizeNames (stringsOf items))
            ∧ (∀ items, r ≠ [] → getProp parsed "remaining".toList = some (some (.arr items)) →
              (loadState jsonParse raw).remaining = (normalizeNames (stringsOf items)).filter
                (fun n => decide (n ∈ (loadState jsonParse raw).names)))
            ∧ (∀ items, r ≠ [] → getProp parsed "history".toList = some (some (.arr items)) →
              (loadState jsonParse raw).history = (normalizeNames (stringsOf items)).filter
                (fun n => decide (n ∈ (loadState jsonParse raw).names))))
      ∧ (∀ n ∈ (loadState jsonParse raw).remaining, n ∈ (loadState jsonParse raw).names)
      ∧ (∀ n ∈ (loadState jsonParse raw).history, n ∈ (loadState jsonParse raw).names) := by
  refine ⟨?_, ?_, ?_⟩
  · rintro (h | h | ⟨r, h, hp⟩)
    · subst h; rfl
    · subst h; rfl
    · subst h
      by_cases hr : r = [] <;> simp [loadState, hr, hp]
  · intro r parsed hraw hparse
    subst hraw
    by_cases hnull : parsed = .null
    · subst hnull
      have hd : loadState jsonParse (some r) = defaultState := by
        by_cases hr : r = [] <;> simp [loadState, hr, hparse, loadParsed_null]
      rw [hd]
      refine ⟨fun _ => rfl, fun _ => rfl, fun _ => rfl, fun _ => rfl, fun _ => rfl,
        ?_, ?_, ?_, ?_, ?_⟩ <;>
        · intro b _ hg; simp [getProp] at hg
    · by_cases hr : r = []
      · have hd : loadState jsonParse (some r) = defaultState := by
          simp [loadState, hr]
        rw [hd]
        exact ⟨fun _ => rfl, fun _ => rfl, fun _ => rfl, fun _ => rfl, fun _ => rfl,
          fun _ h _ => absurd hr h, fun _ h _ => absurd hr h, fun _ h _ => absurd hr h,
          fun _ h _ => absurd hr h, fun _ h _ => absurd hr h⟩
      · have hl := loadState_of_parsed jsonParse r parsed hr hparse hnull
        obtain ⟨f1, f2, f3, f4, f5⟩ := loadParsed_fields parsed _ hl
        refine ⟨?_, ?_, ?_, ?_, ?_, ?_, ?_, ?_, ?_, ?_⟩
        · intro h
          rw [f1, fieldArr_default _ _ h]; rfl
        · intro h
          rw [f2, fieldBool_default _ _ _ h]
        · intro h
          rw [f3, fieldBool_default _ _ _ h]
        · intro h
          rw [f4, fieldArr_default _ _ h]; rfl
        · intro h
          rw [f5, fieldArr_default _ _ h]; rfl
        · intro b _ hg
          rw [f2]; unfold fieldBool; rw [hg]
        · intro b _ hg
          rw [f3]; unfold fieldBool; rw [hg]
        · intro items _ hg
          rw [f1]; unfold fieldArr; rw [hg]
        · intro items _ hg
          rw [f4]; unfold fieldArr; rw [hg]
        · intro items _ hg
          rw [f5]; unfold fieldArr; rw [hg]
  · rcases loadState_cases jsonParse raw with hd | ⟨_, parsed, _, _, _, hl⟩
    · rw [hd]; simp [defaultState]
    · exact loadParsed_pruned parsed _ hl

/-- Witness of C9: the unparseable text of the scenario gives the default
session; in the sample record the text under `noRepeat` and the missing
`remaining` give the defaults, the boolean under `sound` is taken over, and
the loaded history keeps only the roster name. -/
theorem loadState_tolerant_witness :
    loadState sampleParse (some "\x7bnot json".toList) = defaultState
      ∧ (loadState sampleParse (some "saved".toList)).noRepeat = true
      ∧ (loadState sampleParse (some "saved".toList)).remaining = []
      ∧ (loadState sampleParse (some "saved".toList)).sound = true
      ∧ (∀ n ∈ (loadState sampleParse (some "saved".toList)).history,
          n ∈ (loadState sampleParse (some "saved".toList)).names) :=
  ⟨(loadState_tolerant sampleParse (some "\x7bnot json".toList)).1
      (Or.inr (Or.inr ⟨_, rfl, rfl⟩)),
    ((loadState_tolerant sampleParse (some "saved".toList)).2.1 _ samplePayload rfl rfl).2.1
      (fun b h => by
        have e : getProp samplePayload "noRepeat".toList = some (some (.str "yes".toList)) := rfl
        rw [e] at h; cases h),
    ((loadState_tolerant sampleParse (some "saved".toList)).2.1 _ samplePayload rfl rfl).2.2.2.1
      (fun items h => by
        have e : getProp samplePayload "remaining".toList = some none := rfl
        rw [e] at h; cases h),
    ((loadState_tolerant sampleParse (some "saved".toList)).2.1 _ samplePayload rfl rfl).2.2.2.2.2.2.1
      true (by decide) rfl,
    (loadState_tolerant sampleParse (some "saved".toList)).2.2.2⟩

/-! ## Resumption -/

theorem isRoster_nil : IsRoster [] :=
  ⟨List.nodup_nil, fun _ h => absurd h (List.not_mem_nil _)⟩

theorem isRoster_normalizeNames (l : List Str) : IsRoster (normalizeNames l) := by
  rw [normalizeNames_eq]
  refine ⟨nodup_keepFirst _, ?_⟩
  intro e he
  rw [mem_keepFirst] at he
  simp only [List.mem_filter, List.mem_map, ne_eq, decide_not, Bool.not_eq_true',
    decide_eq_false_iff_not] at he
  obtain ⟨⟨x, _, hx⟩, hne⟩ := he
  exact ⟨hne, by rw [← hx, normWs_idem]⟩

theorem isRoster_parseNames (text : Str) : IsRoster (parseNames text) :=
  isRoster_normalizeNames _

theorem normalizeNames_of_isRoster (l : List Str) (h : IsRoster l) : normalizeNames l = l := by
  have h1 : l.map normWs = l := by
    conv_rhs => rw [← List.map_id l]
    apply List.map_congr_left
    intro e he
    exact (h.2 e he).2
  have h2 : l.filter (fun s => decide (s ≠ [])) = l := by
    rw [List.filter_eq_self]
    intro e he
    simpa using (h.2 e he).1
  rw [normalizeNames_eq, h1, h2, keepFirst_of_nodup _ h.1]

theorem isRoster_of_subset (l names : List Str) (hn : IsRoster names) (hl : l.Nodup)
    (hs : ∀ e ∈ l, e ∈ names) : IsRoster l :=
  ⟨hl, fun e he => hn.2 e (hs e he)⟩

theorem names_applyWinner (s : State) (w : Str) : (applyWinner s w).names = s.names := by
  by_cases h : s.noRepeat = true <;> simp [applyWinner, h]

theorem names_undo (m : Machine) : (undo m).state.names = m.state.names := by
  unfold undo
  split
  · rfl
  · split
    · rfl
    · dsimp only
      split
      · split <;> rfl
      · rfl

theorem step_isRoster (m m1 : Machine) (e : Event) (h : IsRoster m.state.names)
    (hs : step m e = some m1) : IsRoster m1.state.names := by
  cases e with
  | saveNames text =>
    simp only [step, Option.some.injEq] at hs
    subst hs
    unfold onSaveNames
    dsimp only
    split
    · exact h
    · exact isRoster_parseNames text
  | setNoRepeat checked =>
    simp only [step, Option.some.injEq] at hs
    subst hs; exact h
  | setSound checked =>
    simp only [step, Option.some.injEq] at hs
    subst hs; exact h
  | startDraw =>
    simp only [step, Option.some.injEq] at hs
    subst hs
    unfold startDraw
    dsimp only
    split
    · exact h
    · split
      · exact h
      · split <;> exact h
  | drawDone u =>
    simp only [step, drawDone] at hs
    split at hs
    · simp at hs
    · split at hs
      · split at hs
        · simp at hs
        · simp only [Option.some.injEq] at hs
          subst hs
          simp only [names_applyWinner]
          exact h
      · simp at hs
  | undo =>
    simp only [step, Option.some.injEq] at hs
    subst hs
    rw [names_undo]; exact h
  | resetDrawOnly =>
    simp only [step, Option.some.injEq] at hs
    subst hs; exact h
  | hardReset =>
    simp only [step, Option.some.injEq] at hs
    subst hs; exact isRoster_nil

theorem run_isRoster (es : List Event) (m m1 : Machine) (h : IsRoster m.state.names)
    (hr : run m es = some m1) : IsRoster m1.state.names := by
  induction es generalizing m with
  | nil =>
    simp only [run, Option.some.injEq] at hr
    subst hr; exact h
  | cons e es ih =>
    unfold run at hr
    cases hs : step m e with
    | none => simp [hs] at hr
    | some m2 =>
      simp only [hs] at hr
      exact ih m2 (step_isRoster m m2 e h hs) hr

theorem isRoster_loadState (jsonParse : Str → Option Json) (raw : Option Str) :
    IsRoster (loadState jsonParse raw).names := by
  rcases loadState_cases jsonParse raw with hd | ⟨_, parsed, _, _, _, hl⟩
  · rw [hd]; exact isRoster_nil
  · rw [(loadParsed_fields parsed _ hl).1]
    exact isRoster_normalizeNames _

theorem reachable_isRoster (m : Machine) (h : Reachable m) : IsRoster m.state.names := by
  obtain ⟨jsonParse, raw, es, hr⟩ := h
  exact run_isRoster es _ m (isRoster_loadState jsonParse raw) hr

theorem stringsOf_map_str (l : List Str) : stringsOf (l.map Json.str) = l := by
  induction l with
  | nil => rfl
  | cons a l ih => simp [stringsOf, ih]

theorem loadParsed_savedRecord (s : State) :
    loadParsed (savedRecord s) = some
      { names := normalizeNames s.names
        noRepeat := s.noRepeat
        sound := s.sound
        remaining := (normalizeNames s.remaining).filter
          (fun n => decide (n ∈ normalizeNames s.names))
        history := (normalizeNames s.history).filter
          (fun n => decide (n ∈ normalizeNames s.names)) } := by
  have hn : savedRecord s ≠ .null := by simp [savedRecord]
  have e1 : fieldArr (savedRecord s) "names".toList = s.names :=
    stringsOf_map_str s.names
  have e2 : fieldArr (savedRecord s) "remaining".toList = s.remaining :=
    stringsOf_map_str s.remaining
  have e3 : fieldArr (savedRecord s) "history".toList = s.history :=
    stringsOf_map_str s.history
  have e4 : fieldBool (savedRecord s) "noRepeat".toList true = s.noRepeat := rfl
  have e5 : fieldBool (savedRecord s) "sound".toList false = s.sound := rfl
  rw [loadParsed_of_ne_null _ hn, e1, e2, e3, e4, e5]

theorem resume_eq (s : State) :
    resume s =
      { names := normalizeNames s.names
        noRepeat := s.noRepeat
        sound := s.sound
        remaining := computeRemainingBase
          { s with
            names := normalizeNames s.names
            history := (normalizeNames s.history).filter
              (fun n => decide (n ∈ normalizeNames s.names)) }
        history := (normalizeNames s.history).filter
          (fun n => decide (n ∈ normalizeNames s.names)) } := by
  unfold resume
  rw [loadParsed_savedRecord]
  simp only [ensureRemaining, computeRemainingBase]

/-- C8, evaluated at the failing input: the reachable repeat-allowed session
in which `A` won twice is saved with `history = [A, A]` and resumes with
`history = [A]`, so the resumed session differs from the saved one. -/
theorem resume_drops_repeated_history :
    run freshMachine repeatTwiceEvents = some repeatTwiceMachine
      ∧ repeatTwiceMachine.state.history = [nameA, nameA]
      ∧ (resume repeatTwiceMachine.state).history = [nameA]
      ∧ resume repeatTwiceMachine.state ≠ repeatTwiceMachine.state := by
  decide

/-- Resumption where the loader's normalisation of `history` removes nothing:
for every reachable session `names`, `noRepeat` and `sound` are restored
exactly; a `history` without a repeated name whose entries are roster names
is restored exactly; and when `remaining` is moreover what
`computeRemainingBase` gives, the resumed session is the saved one. -/
theorem resume_reachable (m : Machine) (h : Reachable m) :
    (resume m.state).names = m.state.names
      ∧ (resume m.state).noRepeat = m.state.noRepeat
      ∧ (resume m.state).sound = m.state.sound
      ∧ (m.state.history.Nodup → (∀ n ∈ m.state.history, n ∈ m.state.names) →
          (resume m.state).history = m.state.history)
      ∧ (m.state.history.Nodup → (∀ n ∈ m.state.history, n ∈ m.state.names) →
          m.state.remaining = computeRemainingBase m.state →
          resume m.state = m.state) := by
  have hr := reachable_isRoster m h
  have hn := normalizeNames_of_isRoster _ hr
  have hist : m.state.history.Nodup → (∀ n ∈ m.state.history, n ∈ m.state.names) →
      (normalizeNames m.state.history).filter (fun n => decide (n ∈ m.state.names))
        = m.state.history := by
    intro hnd hsub
    rw [normalizeNames_of_isRoster _ (isRoster_of_subset _ _ hr hnd hsub),
      List.filter_eq_self]
    intro e he
    simpa using hsub e he
  rw [resume_eq, hn]
  refine ⟨rfl, rfl, rfl, fun hnd hsub => hist hnd hsub, ?_⟩
  intro hnd hsub hpool
  rw [hist hnd hsub]
  cases hs : m.state with
  | mk names noRepeat sound remaining history =>
    rw [hs] at hpool
    simp only [computeRemainingBase] at hpool ⊢
    simp only [State.mk.injEq, true_and, and_true]
    exact hpool.symm

/-- An instance: the reachable session with `A` drawn and a second draw in
progress resumes as it was saved. -/
theorem resume_reachable_witness :
    Reachable secondDrawMachine ∧ resume secondDrawMachine.state = secondDrawMachine.state :=
  ⟨⟨fun _ => none, none, secondDrawEvents, by decide⟩,
    (resume_reachable secondDrawMachine ⟨fun _ => none, none, secondDrawEvents, by decide⟩).2.2.2.2
      (by decide) (by decide) (by decide)⟩

end RandomNames
